import Mathlib

/-!
Shallow embedding of the metrics-proxy core (dfinity/metrics-proxy) used to
verify the natural-language specification against the source.

Conventions of the embedding:
* Rust `Instant` (monotonic clock) is a `Nat` measured from the clock origin;
  `Duration` is a `Nat` in the same unit.  `Instant::checked_sub` becomes
  `checkedSub`.
* Rust `HashMap`s that are only ever used through key lookup / keyed insert /
  keyed removal are embedded as association lists (`alookup`, `aInsert`,
  `eraseKey`); iteration order of those maps is never observable in the
  embedded code paths.
* `f64` sample values are data the filtering and caching code carries around
  but never computes with; they are embedded as `FloatVal` (±infinity plus an
  exact rational payload), and the numeric-to-text formatters `fmtE`
  (Rust `{:e}` formatting) and `fmtDisplay` (Rust `{}` formatting) are fixed
  executable stand-ins whose digit-level output no claim depends on.
* `regex::Regex::is_match` of the (anchored) configuration regex is embedded
  as an abstract Boolean predicate on the joined label values.
-/

namespace MetricsProxy

/-! ### Association-list primitives standing in for HashMap -/

/-- Lookup of the value stored under key `k` (HashMap::get / contains_key). -/
def alookup {κ β : Type} [DecidableEq κ] (k : κ) : List (κ × β) → Option β
  | [] => none
  | p :: ps => if p.1 = k then some p.2 else alookup k ps

/-- Keyed insert replacing any existing entry (HashMap::insert). -/
def aInsert {κ β : Type} [DecidableEq κ] (k : κ) (v : β) : List (κ × β) → List (κ × β)
  | [] => [(k, v)]
  | p :: ps => if p.1 = k then (k, v) :: ps else p :: aInsert k v ps

/-- Removal of the (first) entry under key `k` (HashMap::remove on a map whose
keys are unique). -/
def eraseKey {κ β : Type} [DecidableEq κ] (k : κ) : List (κ × β) → List (κ × β)
  | [] => []
  | p :: ps => if p.1 = k then ps else p :: eraseKey k ps

/-! ### Data model: samples, values, scrapes (prometheus_parse) -/

/-- An `f64` value as carried by the pipeline: positive/negative infinity or a
finite value (embedded exactly). -/
inductive FloatVal : Type
  | inf : FloatVal
  | negInf : FloatVal
  | num (q : Rat) : FloatVal
deriving DecidableEq

/-- Stand-in for Rust `format!("{:e}", v)` on the scalar payload.  No claim
depends on the exact digits, only on this being a fixed total function. -/
def fmtE : FloatVal → String
  | .inf => "inf"
  | .negInf => "-inf"
  | .num q => toString q ++ "e0"

/-- Stand-in for Rust `format!("{}", v)` (Display) on the scalar payload. -/
def fmtDisplay : FloatVal → String
  | .inf => "inf"
  | .negInf => "-inf"
  | .num q => toString q

/-- One histogram bucket: `{less_than, count}`. -/
structure HistogramCount where
  less_than : FloatVal
  count : FloatVal
deriving DecidableEq

/-- One summary entry: `{quantile, count}`. -/
structure SummaryCount where
  quantile : FloatVal
  count : FloatVal
deriving DecidableEq

/-- prometheus_parse::Value. -/
inductive Value : Type
  | untyped (v : FloatVal)
  | counter (v : FloatVal)
  | gauge (v : FloatVal)
  | histogram (buckets : List HistogramCount)
  | summary (quantiles : List SummaryCount)
deriving DecidableEq

/-- prometheus_parse::Sample.  `labels` is the label mapping in its iteration
order; as a map it has pairwise-distinct label names. -/
structure Sample where
  metric : String
  labels : List (String × String)
  value : Value
  timestamp : Option Int
deriving DecidableEq

/-- prometheus_parse::Scrape: `docs` maps metric name to HELP text. -/
structure Scrape where
  docs : List (String × String)
  samples : List Sample
deriving DecidableEq

/-! ### Fingerprints (cache.rs: OrderedLabelSet) -/

/-- cache.rs `LabelPair`. -/
structure LabelPair where
  name : String
  value : String
deriving DecidableEq

/-- Sorting relation used by `OrderedLabelSet::from`: compare pairs by label
name (`sorted_unstable_by_key(|k| k.name)`).  The comparison is the
lexicographic order on the names' character lists (the order on `String`). -/
def rname (a b : LabelPair) : Prop := a.name.data ≤ b.name.data

instance : DecidableRel rname :=
  fun a b => inferInstanceAs (Decidable (a.name.data ≤ b.name.data))

instance : IsTotal LabelPair rname := ⟨fun a b => le_total a.name.data b.name.data⟩

instance : IsTrans LabelPair rname := ⟨fun _ _ _ h1 h2 => le_trans h1 h2⟩

/-- cache.rs `OrderedLabelSet::from(&Sample)`: the synthetic `__name__` pair is
prepended to the label pairs and the result is sorted by name.  (On the inputs
arising here ties can involve at most the `__name__` pair and one equally
named label, for which Rust's small-slice insertion sort is stable, matching
`List.insertionSort`.) -/
def fingerprintOf (s : Sample) : List LabelPair :=
  List.insertionSort rname
    (⟨"__name__", s.metric⟩ :: s.labels.map (fun p => ⟨p.1, p.2⟩))

/-! ### Sample cache (cache.rs: SampleCacheStore) -/

/-- cache.rs `SampleCacheEntry`. -/
structure SampleCacheEntry where
  sample : Sample
  saved_at : Nat
deriving DecidableEq

/-- cache.rs `SampleCacheStore`: a map from fingerprint to entry. -/
structure SampleCacheStore where
  cache : List (List LabelPair × SampleCacheEntry)
deriving DecidableEq

/-- Rust `Instant::checked_sub` on the `Nat` clock: `none` exactly when the
subtraction would underflow the monotonic clock origin. -/
def checkedSub (a b : Nat) : Option Nat :=
  if b ≤ a then some (a - b) else none

/-- cache.rs `SampleCacheStore::get`. -/
def SampleCacheStore.get (store : SampleCacheStore) (sample : Sample)
    (when : Nat) (staleness : Nat) : Option Sample :=
  match alookup (fingerprintOf sample) store.cache with
  | some v =>
    match checkedSub when staleness with
    | some when_minus_staleness =>
      if when_minus_staleness < v.saved_at then some v.sample else none
    | none => none
  | none => none

/-- cache.rs `SampleCacheStore::put`. -/
def SampleCacheStore.put (store : SampleCacheStore) (sample : Sample)
    (at_ : Nat) : SampleCacheStore :=
  ⟨aInsert (fingerprintOf sample) ⟨sample, at_⟩ store.cache⟩

/-! ### Exposition renderer (proxy.rs: render_labels / render_sample /
render_scrape_data) -/

/-- proxy.rs `render_labels`: the `name="value"` strings are sorted, the
optional synthesized label is appended, and the block is wrapped in braces
unless empty. -/
def render_labels (labels : List (String × String)) (extra : Option String) : String :=
  let joined := labels.map (fun p => p.1 ++ "=\x22" ++ p.2 ++ "\x22")
  let sorted := List.insertionSort (fun a b : String => a.data ≤ b.data) joined
  let withExtra := match extra with
    | some o => sorted ++ [o]
    | none => sorted
  if withExtra.isEmpty then ""
  else "\x7b" ++ String.intercalate "," withExtra ++ "\x7d"

/-- The `le="<x>"` payload of a histogram bucket line. -/
def leStr (v : FloatVal) : String :=
  match v with
  | .inf => "+Inf"
  | .negInf => "-Inf"
  | .num q => fmtDisplay (.num q)

/-- proxy.rs `render_sample`: one line per scalar, bucket or quantile. -/
def render_sample (s : Sample) : List String :=
  let values : List String :=
    match s.value with
    | .untyped v => [fmtE v]
    | .counter v => [fmtE v]
    | .gauge v => [fmtE v]
    | .histogram l => l.map (fun h => fmtE h.count)
    | .summary l => l.map (fun h => fmtE h.count)
  let extras : List (Option String) :=
    match s.value with
    | .untyped _ => [none]
    | .counter _ => [none]
    | .gauge _ => [none]
    | .histogram l => l.map (fun h => some ("le=\x22" ++ leStr h.less_than ++ "\x22"))
    | .summary l => l.map (fun h => some ("quantile=\x22" ++ fmtDisplay h.quantile ++ "\x22"))
  (values.zip extras).map (fun p => s.metric ++ render_labels s.labels p.2 ++ " " ++ p.1)

/-- The lowercase TYPE string inferred from a sample's value variant. -/
def typeStr : Value → String
  | .untyped _ => "untyped"
  | .counter _ => "counter"
  | .gauge _ => "gauge"
  | .histogram _ => "histogram"
  | .summary _ => "summary"

/-- Sorting relation used by `render_scrape_data` on samples: compare by
metric name (itertools `sorted_by(metric.cmp)`, a stable sort). -/
def rmetric (a b : Sample) : Prop := a.metric.data ≤ b.metric.data

instance : DecidableRel rmetric :=
  fun a b => inferInstanceAs (Decidable (a.metric.data ≤ b.metric.data))

/-- The per-sample chunk loop of `render_scrape_data`: `help` is the mutable
clone of `scrape.docs`, consumed by `help.remove(metric)` so that HELP/TYPE
heads are emitted at most once per metric name. -/
def renderChunks (help : List (String × String)) : List Sample → List String
  | [] => []
  | s :: rest =>
    let rendered := String.intercalate "\n" (render_sample s)
    match alookup s.metric help with
    | some h =>
      ("# HELP " ++ s.metric ++ " " ++ h ++ "\n# TYPE " ++ s.metric ++ " "
          ++ typeStr s.value ++ "\n" ++ rendered)
        :: renderChunks (eraseKey s.metric help) rest
    | none => rendered :: renderChunks help rest

/-- proxy.rs `render_scrape_data`: samples sorted (stably) by metric name,
chunks joined by newlines, with one trailing newline appended. -/
def render_scrape_data (scrape : Scrape) : String :=
  String.intercalate "\n"
      (renderChunks scrape.docs (List.insertionSort rmetric scrape.samples))
    ++ "\n"

/-! ### Label-filter engine (config.rs: LabelFilterAction / LabelFilter,
proxy.rs: MetricsProxier::apply_filters) -/

/-- config.rs `LabelFilterAction`; the `reduce_time_resolution` duration is a
`Nat` on the monotonic clock scale. -/
inductive LabelFilterAction : Type
  | keep
  | drop
  | reduceTimeResolution (resolution : Nat)
deriving DecidableEq

/-- config.rs `LabelFilter`; the anchored compiled regex is embedded as the
abstract match predicate `regex` on the joined source-label values. -/
structure LabelFilter where
  source_labels : List String
  separator : String
  regex : String → Bool
  actions : List LabelFilterAction

/-- proxy.rs `apply_filters::label_value`: `__name__` resolves to the metric
name, an absent label contributes the empty string. -/
def label_value (metric : String) (labels : List (String × String))
    (label_name : String) : String :=
  if label_name = "__name__" then metric
  else
    match alookup label_name labels with
    | some v => v
    | none => ""

/-- The separator-joined source-label values a filter matches against. -/
def joinedValues (f : LabelFilter) (s : Sample) : String :=
  String.intercalate f.separator (f.source_labels.map (label_value s.metric s.labels))

/-- The per-sample mutable state of the filter loop in `apply_filters`:
`keep`, `cached_sample` and `must_cache_sample`. -/
structure FilterState where
  keep : Option Bool
  cached_sample : Option Sample
  must_cache : Bool
deriving DecidableEq

/-- Effect of one action of one matched-or-not filter on the per-sample
state (the body of the inner `for action in &selector.actions` loop). -/
def applyAction (cache : SampleCacheStore) (now : Nat) (s : Sample)
    (matched : Bool) (st : FilterState) (a : LabelFilterAction) : FilterState :=
  if matched then
    match a with
    | .keep => { st with keep := some true }
    | .drop => { st with keep := some false }
    | .reduceTimeResolution resolution =>
      { st with cached_sample := cache.get s now resolution, must_cache := true }
  else st

/-- Effect of one filter (the body of the `for selector in selectors` loop). -/
def applyFilter (cache : SampleCacheStore) (now : Nat) (s : Sample)
    (st : FilterState) (f : LabelFilter) : FilterState :=
  (f.actions).foldl (applyAction cache now s (f.regex (joinedValues f s))) st

/-- The whole filter loop for one sample, from the initial unset state. -/
def runFilters (filters : List LabelFilter) (cache : SampleCacheStore)
    (now : Nat) (s : Sample) : FilterState :=
  filters.foldl (applyFilter cache now s) ⟨none, none, false⟩

/-- The tail of the per-sample iteration of `apply_filters`: drop the sample
when `keep == Some(false)`; otherwise emit the cached substitute if present,
else emit the original sample, storing it at `now` when the cache was
consulted and missed. -/
def processSample (filters : List LabelFilter) (cache : SampleCacheStore)
    (now : Nat) (s : Sample) : Option Sample × SampleCacheStore :=
  let st := runFilters filters cache now s
  if st.keep = some false then (none, cache)
  else
    match st.cached_sample with
    | some c => (some c, cache)
    | none => (some s, if st.must_cache then cache.put s now else cache)

/-- One iteration of the `for sample in series.samples` loop of
`apply_filters`, updating the output sample vector, the output docs map and
the sample cache. -/
def filterStep (filters : List LabelFilter) (seriesDocs : List (String × String))
    (now : Nat) (acc : List Sample × List (String × String) × SampleCacheStore)
    (s : Sample) : List Sample × List (String × String) × SampleCacheStore :=
  match processSample filters acc.2.2 now s with
  | (none, cache') => (acc.1, acc.2.1, cache')
  | (some out, cache') =>
    let docs' :=
      if alookup s.metric acc.2.1 = none then
        match alookup s.metric seriesDocs with
        | some h => acc.2.1 ++ [(s.metric, h)]
        | none => acc.2.1
      else acc.2.1
    (acc.1 ++ [out], docs', cache')

/-- proxy.rs `MetricsProxier::apply_filters`, with the sample cache passed
explicitly and `now` sampled once per pass. -/
def apply_filters (filters : List LabelFilter) (series : Scrape)
    (cache : SampleCacheStore) (now : Nat) : Scrape × SampleCacheStore :=
  let acc := series.samples.foldl (filterStep filters series.docs now) ([], [], cache)
  (⟨acc.2.1, acc.1⟩, acc.2.2)

/-! ### Backend scrape and the proxier's handle (client.rs: scrape,
proxy.rs: MetricsProxier::handle) -/

/-- client.rs `ScrapeError`, as matched by `MetricsProxier::handle`; each
error payload carries the text the handler interpolates into its body.
The `decodeError` variant appears in the handler's match; the `scrape`
function of this client version never constructs it. -/
inductive ScrapeError : Type
  | non200 (status : Nat) (headers : List (String × String)) (data : String)
  | fetchError (is_timeout : Bool) (dbg : String)
  | parseError (dbg : String)
  | decodeError (dbg : String)
deriving DecidableEq

/-- client.rs `ScrapeResult`. -/
structure ScrapeResult where
  headers : List (String × String)
  series : Scrape
deriving DecidableEq

/-- Outcome of the backend HTTP round trip that `scrape` consumes: either the
request or body read failed (with the timeout flag of `reqwest::Error`), or a
response arrived with a status, headers and a body text. -/
inductive FetchOutcome : Type
  | err (is_timeout : Bool) (dbg : String)
  | ok (status : Nat) (headers : List (String × String)) (text : String)
deriving DecidableEq

/-- client.rs `scrape`, abstracted over the external Prometheus text parser:
fetch failures propagate as `fetchError`; a response with status other than
200 (`status != reqwest::StatusCode::OK`) becomes `non200`; otherwise the body
is parsed, a parser error becoming `parseError`. -/
def scrape (parse : String → Except String Scrape) (r : FetchOutcome) :
    Except ScrapeError ScrapeResult :=
  match r with
  | .err t d => .error (.fetchError t d)
  | .ok status headers text =>
    if status ≠ 200 then .error (.non200 status headers text)
    else
      match parse text with
      | .ok parsed => .ok ⟨headers, parsed⟩
      | .error e => .error (.parseError e)

/-- proxy.rs `HOPBYHOP`. -/
def HOPBYHOP : List String :=
  ["keep-alive", "transfer-encoding", "te", "connection", "trailer",
   "upgrade", "proxy-authorization", "proxy-authenticate"]

/-- proxy.rs `STRIP_FROM_RESPONSE`. -/
def STRIP_FROM_RESPONSE : List String := ["content-length"]

/-- proxy.rs `safely_clone_response_headers`: drop hop-by-hop headers and
`content-length` by lowercase name. -/
def safely_clone_response_headers (hs : List (String × String)) :
    List (String × String) :=
  hs.filter (fun p => ¬ p.1.toLower ∈ HOPBYHOP ∧ ¬ p.1.toLower ∈ STRIP_FROM_RESPONSE)

/-- proxy.rs `fallback_headers`. -/
def fallback_headers : List (String × String) := [("content-type", "text/plain")]

/-- The match over the scrape result in `MetricsProxier::handle`, producing
the `(status, headers, body)` triple. -/
def handleResult (filters : List LabelFilter) (cache : SampleCacheStore)
    (now : Nat) (res : Except ScrapeError ScrapeResult) :
    Nat × List (String × String) × String :=
  match res with
  | .error (.non200 status headers data) =>
    (status, safely_clone_response_headers headers, data)
  | .error (.parseError e) =>
    (500, fallback_headers, "Error parsing output.\n\n" ++ e)
  | .error (.decodeError e) =>
    (500, fallback_headers, "Error decoding UTF-8 output.\n\n" ++ e)
  | .error (.fetchError t d) =>
    if t then (504, fallback_headers, "The target is timing out.\n\n" ++ d)
    else (502, fallback_headers, "The target is down.\n\n" ++ d)
  | .ok parsed =>
    (200, safely_clone_response_headers parsed.headers,
     render_scrape_data (apply_filters filters parsed.series cache now).1)

/-- proxy.rs `MetricsProxier::handle`: scrape the backend, then map the
outcome to a response triple. -/
def handle (filters : List LabelFilter) (parse : String → Except String Scrape)
    (cache : SampleCacheStore) (now : Nat) (r : FetchOutcome) :
    Nat × List (String × String) × String :=
  handleResult filters cache now (scrape parse r)

/-! ### Response coalescer (cache.rs: DeadlineCacher) -/

/-- http `StatusCode::is_success`: the 2xx range. -/
def is2xx (status : Nat) : Bool := 200 ≤ status ∧ status < 300

/-- proxy.rs `CachedResponse` (the coalescer payload of CachedMetricsProxier). -/
structure CachedResponse where
  status : Nat
  headers : List (String × String)
  contents : String
deriving DecidableEq

/-- State of a `DeadlineCacher`: the hashmap sends each key to the identity of
an entry object (`Arc<RwLock<Option<Arc<Y>>>>`); `values` records the contents
of every entry object ever created, and `nextId` is the identity the next
created entry will get. -/
structure CoalescerState (Y : Type) where
  nextId : Nat
  entries : List (String × Nat)
  values : List (Nat × Option Y)

/-- The read-path check of `get_or_insert_with`: a cached value is returned
only when the map has an entry for the key and that entry's value is set. -/
def hitLookup {Y : Type} (st : CoalescerState Y) (key : String) : Option Y :=
  match alookup key st.entries with
  | some id =>
    match alookup id st.values with
    | some (some v) => some v
    | _ => none
  | none => none

/-- cache.rs `DeadlineCacher::get_or_insert_with` as a state transition (the
scheduled removal task and the lock choreography are outside the sequential
model): on a hit the state is unchanged; otherwise a fresh empty entry is
created and inserted under the key (replacing any tombstone), the future's
result is returned, and it is written into the fresh entry iff the future
marked it cacheable. -/
def get_or_insert_with {Y : Type} (st : CoalescerState Y) (key : String)
    (fut : Y × Bool) : (Y × Bool) × CoalescerState Y :=
  match hitLookup st key with
  | some v => ((v, true), st)
  | none =>
    let id := st.nextId
    let entries' := aInsert key id st.entries
    let values0 := aInsert id (none : Option Y) st.values
    let values' := if fut.2 then aInsert id (some fut.1) values0 else values0
    ((fut.1, false), ⟨st.nextId + 1, entries', values'⟩)

/-- proxy.rs `handle_with_cache::handle_async`: wrap a handler response and
mark it cacheable iff its status `is_success()`. -/
def handle_async (out : Nat × List (String × String) × String) :
    CachedResponse × Bool :=
  (⟨out.1, out.2.1, out.2.2⟩, is2xx out.1)

/-- The invariant the coalescer maintains: every set entry value holds a 2xx
response. -/
def CoalescerInv (st : CoalescerState CachedResponse) : Prop :=
  ∀ id r, alookup id st.values = some (some r) → is2xx r.status = true

/-! ### Coalescer keys (cache.rs: CacheService::call,
proxy.rs: CachedMetricsProxier::handle_with_cache) -/

/-- Rust `{:?}` debug formatting of `Option<&HeaderValue>` as interpolated
into the cache keys. -/
def fmtDebugOpt : Option String → String
  | none => "None"
  | some v => "Some(\x22" ++ v ++ "\x22)"

/-- cache.rs `CacheService::call` cache key:
`format!("{}\n{:?}\n{:?}", uri, authorization, proxy_authorization)`. -/
def cacheServiceKey (uri : String) (auth proxyAuth : Option String) : String :=
  uri ++ "\n" ++ fmtDebugOpt auth ++ "\n" ++ fmtDebugOpt proxyAuth

/-- proxy.rs `CachedMetricsProxier::handle_with_cache` cache key:
`format!("{:?}\n{:?}", authorization, proxy_authorization)` — the request URL
does not enter this key. -/
def handleWithCacheKey (auth proxyAuth : Option String) : String :=
  fmtDebugOpt auth ++ "\n" ++ fmtDebugOpt proxyAuth

/-- A client request as seen by the coalescer key computations. -/
structure Request where
  uri : String
  authorization : Option String
  proxy_authorization : Option String

/-- The key `handle_with_cache` computes for a request. -/
def handleWithCacheKeyOf (r : Request) : String :=
  handleWithCacheKey r.authorization r.proxy_authorization

/-- The key `CacheService::call` computes for a request. -/
def cacheServiceKeyOf (r : Request) : String :=
  cacheServiceKey r.uri r.authorization r.proxy_authorization

/-! ### Derived notions used to state the claims -/

/-- Whether an action is a Keep or a Drop (as opposed to a
ReduceTimeResolution). -/
def isKeepOrDrop : LabelFilterAction → Bool
  | .keep => true
  | .drop => true
  | .reduceTimeResolution _ => false

/-- The Keep/Drop actions of the filters matching a sample, in configured
filter-and-action order. -/
def matchedKeepDrops (filters : List LabelFilter) (s : Sample) :
    List LabelFilterAction :=
  filters.flatMap (fun f =>
    if f.regex (joinedValues f s) then f.actions.filter isKeepOrDrop else [])

/-- The value of the `keep` variable after replaying a list of matched
actions over an initial value. -/
def keepAfter : List LabelFilterAction → Option Bool → Option Bool
  | [], k0 => k0
  | .keep :: rest, _ => keepAfter rest (some true)
  | .drop :: rest, _ => keepAfter rest (some false)
  | .reduceTimeResolution _ :: rest, k0 => keepAfter rest k0

/-- The docs map `apply_filters` accumulates while iterating the samples: a
sample's HELP entry is copied from the input docs the first time its metric
is seen. -/
def docsAcc (seriesDocs : List (String × String)) :
    List (String × String) → List Sample → List (String × String)
  | d, [] => d
  | d, s :: rest =>
    docsAcc seriesDocs
      (if alookup s.metric d = none then
        match alookup s.metric seriesDocs with
        | some h => d ++ [(s.metric, h)]
        | none => d
      else d) rest

/-! ### Concrete fixtures used by witnesses and counterexamples -/

/-- A concrete sample used to instantiate theorems. -/
def sampleA : Sample :=
  ⟨"node_frobnicated", [("cpu", "0")], .counter (.num 0), none⟩

/-- A concrete sample cache holding `sampleA` saved at instant 8. -/
def storeA : SampleCacheStore := (SampleCacheStore.mk []).put sampleA 8

/-! ### Theorems -/

/-- A filter dropping every sample (its regex matches everything). -/
def filterDropAll : LabelFilter := ⟨["__name__"], ";", fun _ => true, [.drop]⟩

/-- A filter keeping samples with label `cpu="1"`. -/
def filterKeepCpu1 : LabelFilter := ⟨["cpu"], ";", fun v => v == "1", [.keep]⟩

/-- A concrete sample with label `cpu="1"`. -/
def sampleCpu1 : Sample :=
  ⟨"node_softnet_times_squeezed_total", [("cpu", "1")], .counter (.num 0), none⟩

/-- A concrete ReduceTimeResolution-only filter (resolution 10). -/
def filterRtr : LabelFilter :=
  ⟨["__name__"], ";", fun v => v == "node_frobnicated", [.reduceTimeResolution 10]⟩

/-- The empty coalescer state. -/
def emptyCoalescer : CoalescerState CachedResponse := ⟨0, [], []⟩

/-- A concrete 2xx response. -/
def respOk : CachedResponse := ⟨200, [], "ok"⟩

/-- Two concrete requests differing only in their URL. -/
def reqA : Request := ⟨"/metrics-a", none, none⟩

/-- Second request for the URL counterexample. -/
def reqB : Request := ⟨"/metrics-b", none, none⟩

/-- Second request for the distinct-Authorization witness. -/
def reqTok2 : Request := ⟨"/a", some "tok2", none⟩

/-- First concrete sample for the fingerprint witness. -/
def sampleL : Sample := ⟨"m", [("a", "1"), ("b", "2")], .gauge (.num 1), none⟩

/-- A concrete scrape (with a HELP entry) for the C6 witness. -/
def scrapeW : Scrape :=
  ⟨[("node_frobnicated", "Number of frobnications")], [sampleA, sampleCpu1]⟩

/-- A trivial external parser accepting every body as an empty scrape, used
to instantiate `handle`. -/
def parseNone : String → Except String Scrape := fun _ => .ok ⟨[], []⟩

/-- Modelled from the amended claim: the spec-side outcome table with the 2xx
passthrough boundary corrected to "status exactly 200".  A fetch timeout
yields 504 and any other fetch error 502; a non-200 backend status is passed
through with sanitized headers and the raw body; a 200 body is parsed,
filtered, rendered and returned with status 200; a parse failure yields 500
with a plain-text diagnostic. -/
def handleOutcomeSpec (filters : List LabelFilter)
    (parse : String → Except String Scrape) (cache : SampleCacheStore)
    (now : Nat) (r : FetchOutcome) : Nat × List (String × String) × String :=
  match r with
  | .err true d => (504, fallback_headers, "The target is timing out.\n\n" ++ d)
  | .err false d => (502, fallback_headers, "The target is down.\n\n" ++ d)
  | .ok st hs text =>
    if st = 200 then
      match parse text with
      | .ok p => (200, safely_clone_response_headers hs,
          render_scrape_data (apply_filters filters p cache now).1)
      | .error e => (500, fallback_headers, "Error parsing output.\n\n" ++ e)
    else (st, safely_clone_response_headers hs, text)

/-- A coalescer state holding a tombstone entry (object identity 0, value
unset) for key `"k"`. -/
def tombState : CoalescerState CachedResponse := ⟨1, [("k", 0)], [(0, none)]⟩

/-- Two concrete requests sharing a URL but presenting different
Authorization tokens. -/
def reqTok1 : Request := ⟨"/a", some "tok1", none⟩

/-- The label pairs a sample's fingerprint is computed from, in iteration
order (before the `__name__` pair is prepended). -/
def labelPairsOf (s : Sample) : List LabelPair :=
  s.labels.map (fun p => ⟨p.1, p.2⟩)

/-- The same series as `sampleL` with its labels iterated in the other
order. -/
def sampleL' : Sample := ⟨"m", [("b", "2"), ("a", "1")], .gauge (.num 1), none⟩

/-- Helper characterizing when the sample cache returns a value. -/
theorem sampleCache_get_eq_some_iff (store : SampleCacheStore) (s : Sample)
    (now staleness : Nat) (x : Sample) :
    store.get s now staleness = some x ↔
      staleness ≤ now ∧ ∃ e, alookup (fingerprintOf s) store.cache = some e ∧
        now - staleness < e.saved_at ∧ x = e.sample := by
  unfold SampleCacheStore.get checkedSub
  cases halo : alookup (fingerprintOf s) store.cache with
  | none => simp
  | some e =>
    by_cases hle : staleness ≤ now
    · rw [if_pos hle]
      by_cases hlt : now - staleness < e.saved_at
      · simp only [if_pos hlt]
        constructor
        · intro h
          exact ⟨hle, e, rfl, hlt, by cases h; rfl⟩
        · rintro ⟨-, e', he', -, rfl⟩
          cases he'; rfl
      · simp only [if_neg hlt]
        constructor
        · intro h; cases h
        · rintro ⟨-, e', he', hlt', rfl⟩
          cases he'; exact absurd hlt' hlt
    · rw [if_neg hle]
      constructor
      · intro h; cases h
      · rintro ⟨hle', -⟩; exact absurd hle' hle

/-- C3: `SampleCacheStore.get(sample, now, staleness)` returns the stored
sample for the sample's fingerprint iff the entry's `saved_at` is strictly
greater than `now − staleness`; an entry with `saved_at = now − staleness` is
stale, and when `now − staleness` underflows the monotonic clock origin the
operation returns nothing. -/
theorem sample_cache_get_spec (store : SampleCacheStore) (s : Sample)
    (now staleness : Nat) :
    (∀ x, store.get s now staleness = some x ↔
       staleness ≤ now ∧ ∃ e, alookup (fingerprintOf s) store.cache = some e ∧
         now - staleness < e.saved_at ∧ x = e.sample)
  ∧ (∀ e, alookup (fingerprintOf s) store.cache = some e →
       e.saved_at = now - staleness → store.get s now staleness = none)
  ∧ (now < staleness → store.get s now staleness = none) := by
  refine ⟨fun x => sampleCache_get_eq_some_iff store s now staleness x, ?_, ?_⟩
  · intro e he hsaved
    cases hg : store.get s now staleness with
    | none => rfl
    | some x =>
      rcases (sampleCache_get_eq_some_iff store s now staleness x).mp hg with
        ⟨-, e', he', hlt, -⟩
      rw [he] at he'
      cases he'
      rw [hsaved] at hlt
      exact absurd hlt (lt_irrefl _)
  · intro hlt
    cases hg : store.get s now staleness with
    | none => rfl
    | some x =>
      rcases (sampleCache_get_eq_some_iff store s now staleness x).mp hg with
        ⟨hle, -⟩
      omega

/-- Witness for C3: a concrete fresh entry (saved at 8, read at 10 with
staleness 3, so `now − staleness = 7 < 8`) is returned. -/
theorem sample_cache_get_spec_witness :
    (3 : Nat) ≤ 10 ∧ storeA.get sampleA 10 3 = some sampleA := by
  refine ⟨by decide, ?_⟩
  exact ((sample_cache_get_spec storeA sampleA 10 3).1 sampleA).mpr
    ⟨by decide, ⟨sampleA, 8⟩, by decide, by decide, rfl⟩

/-- C10: rendering a scrape with an empty sample sequence produces exactly the
single byte `"\n"`, and a rendered body is never the empty byte sequence. -/
theorem render_empty_scrape (docs : List (String × String)) :
    render_scrape_data ⟨docs, []⟩ = "\n"
  ∧ ∀ sc : Scrape, 0 < (render_scrape_data sc).length := by
  constructor
  · rfl
  · intro sc
    unfold render_scrape_data
    rw [String.length_append]
    have h : ("\n" : String).length = 1 := rfl
    omega

/-- A filter whose regex does not match leaves the whole per-sample state
unchanged. -/
theorem foldl_applyAction_unmatched (cache : SampleCacheStore) (now : Nat)
    (s : Sample) (l : List LabelFilterAction) (st : FilterState) :
    l.foldl (applyAction cache now s false) st = st := by
  induction l generalizing st with
  | nil => rfl
  | cons a l ih => simpa [applyAction] using ih st

/-- Replaying the actions of a matched filter updates `keep` exactly as
`keepAfter` does. -/
theorem foldl_applyAction_keep (cache : SampleCacheStore) (now : Nat)
    (s : Sample) (l : List LabelFilterAction) (st : FilterState) :
    (l.foldl (applyAction cache now s true) st).keep = keepAfter l st.keep := by
  induction l generalizing st with
  | nil => rfl
  | cons a l ih =>
    cases a with
    | keep => simpa [applyAction, keepAfter] using ih _
    | drop => simpa [applyAction, keepAfter] using ih _
    | reduceTimeResolution r => simpa [applyAction, keepAfter] using ih _

/-- keepAfter distributes over list append. -/
theorem keepAfter_append (l₁ l₂ : List LabelFilterAction) (k : Option Bool) :
    keepAfter (l₁ ++ l₂) k = keepAfter l₂ (keepAfter l₁ k) := by
  induction l₁ generalizing k with
  | nil => rfl
  | cons a l ih =>
    cases a with
    | keep => simp [keepAfter, ih]
    | drop => simp [keepAfter, ih]
    | reduceTimeResolution r => simp [keepAfter, ih]

/-- Discarding the ReduceTimeResolution actions does not change `keepAfter`. -/
theorem keepAfter_filter (l : List LabelFilterAction) (k : Option Bool) :
    keepAfter (l.filter isKeepOrDrop) k = keepAfter l k := by
  induction l generalizing k with
  | nil => rfl
  | cons a l ih =>
    cases a with
    | keep => simp [keepAfter, isKeepOrDrop, List.filter, ih]
    | drop => simp [keepAfter, isKeepOrDrop, List.filter, ih]
    | reduceTimeResolution r => simp [keepAfter, isKeepOrDrop, List.filter, ih]

/-- The `keep` variable at the end of the filter loop replays exactly the
matched Keep/Drop actions. -/
theorem runFilters_keep (filters : List LabelFilter) (cache : SampleCacheStore)
    (now : Nat) (s : Sample) :
    (runFilters filters cache now s).keep =
      keepAfter (matchedKeepDrops filters s) none := by
  suffices h : ∀ (fs : List LabelFilter) (st : FilterState),
      (fs.foldl (applyFilter cache now s) st).keep =
        keepAfter (matchedKeepDrops fs s) st.keep by
    exact h filters ⟨none, none, false⟩
  intro fs
  induction fs with
  | nil => intro st; rfl
  | cons f fs ih =>
    intro st
    show ((fs.foldl (applyFilter cache now s)) (applyFilter cache now s st f)).keep = _
    rw [ih]
    unfold applyFilter matchedKeepDrops
    cases hm : f.regex (joinedValues f s) with
    | false =>
      rw [foldl_applyAction_unmatched]
      simp [matchedKeepDrops, hm]
    | true =>
      simp only [List.flatMap_cons, hm, if_true, keepAfter_append, keepAfter_filter,
        foldl_applyAction_keep, matchedKeepDrops]

/-- A replay over Keep/Drop actions only is decided by the last action. -/
theorem keepAfter_getLast (l : List LabelFilterAction)
    (hl : ∀ a ∈ l, isKeepOrDrop a = true) (k : Option Bool) :
    keepAfter l k =
      match l.getLast? with
      | some .keep => some true
      | some .drop => some false
      | _ => k := by
  induction l generalizing k with
  | nil => rfl
  | cons a rest ih =>
    have ha : isKeepOrDrop a = true := hl a (List.mem_cons_self a rest)
    have hl' : ∀ x ∈ rest, isKeepOrDrop x = true :=
      fun x hx => hl x (List.mem_cons_of_mem _ hx)
    cases rest with
    | nil =>
      cases a with
      | keep => rfl
      | drop => rfl
      | reduceTimeResolution r => simp [isKeepOrDrop] at ha
    | cons b rest' =>
      rw [List.getLast?_cons_cons]
      obtain ⟨x, hx⟩ : ∃ x, (b :: rest').getLast? = some x := by
        cases h : (b :: rest').getLast? with
        | none => exact absurd (List.getLast?_eq_none_iff.mp h) (by simp)
        | some x => exact ⟨x, rfl⟩
      have hxkd : isKeepOrDrop x = true :=
        hl' x (List.mem_of_getLast?_eq_some hx)
      cases a with
      | keep =>
        have h1 : keepAfter (.keep :: b :: rest') k
            = keepAfter (b :: rest') (some true) := rfl
        rw [h1, ih hl', hx]
        cases x with
        | keep => rfl
        | drop => rfl
        | reduceTimeResolution r => simp [isKeepOrDrop] at hxkd
      | drop =>
        have h1 : keepAfter (.drop :: b :: rest') k
            = keepAfter (b :: rest') (some false) := rfl
        rw [h1, ih hl', hx]
        cases x with
        | keep => rfl
        | drop => rfl
        | reduceTimeResolution r => simp [isKeepOrDrop] at hxkd
      | reduceTimeResolution r => simp [isKeepOrDrop] at ha

/-- The per-sample decision drops a sample exactly when the final `keep` is
`Some(false)`. -/
theorem processSample_fst_none_iff (filters : List LabelFilter)
    (cache : SampleCacheStore) (now : Nat) (s : Sample) :
    (processSample filters cache now s).1 = none ↔
      (runFilters filters cache now s).keep = some false := by
  unfold processSample
  by_cases h : (runFilters filters cache now s).keep = some false
  · simp [h]
  · simp only [if_neg h]
    cases (runFilters filters cache now s).cached_sample <;> simp [h]

/-- C2: the label-filter engine discards a sample iff at least one matching
filter action is Keep or Drop and the last such action in configured
filter-and-action order is Drop; a sample matched by no Keep or Drop action is
retained; in particular a blanket Drop rule followed by a targeted Keep rule
retains exactly the samples the later rule matches. -/
theorem filter_last_write_wins (filters : List LabelFilter)
    (cache : SampleCacheStore) (now : Nat) (s : Sample) :
    ((processSample filters cache now s).1 = none ↔
       (matchedKeepDrops filters s).getLast? = some .drop)
  ∧ (matchedKeepDrops filters s = [] →
       (processSample filters cache now s).1.isSome = true)
  ∧ (∀ fd fk : LabelFilter, fd.actions = [.drop] → fk.actions = [.keep] →
       fd.regex (joinedValues fd s) = true →
       ((processSample [fd, fk] cache now s).1.isSome = true ↔
          fk.regex (joinedValues fk s) = true)) := by
  have hmain : ∀ (fs : List LabelFilter) (c : SampleCacheStore),
      ((processSample fs c now s).1 = none ↔
        (matchedKeepDrops fs s).getLast? = some .drop) := by
    intro fs c
    rw [processSample_fst_none_iff, runFilters_keep]
    have hkd : ∀ a ∈ matchedKeepDrops fs s, isKeepOrDrop a = true := by
      intro a ha
      rcases List.mem_flatMap.mp ha with ⟨f, hf, hmem⟩
      by_cases hc : f.regex (joinedValues f s) = true
      · rw [if_pos hc] at hmem
        exact (List.mem_filter.mp hmem).2
      · rw [if_neg hc] at hmem
        exact absurd hmem (List.not_mem_nil a)
    rw [keepAfter_getLast _ hkd]
    cases hg : (matchedKeepDrops fs s).getLast? with
    | none => simp
    | some x => cases x <;> simp
  refine ⟨hmain filters cache, ?_, ?_⟩
  · intro hempty
    have h1 := hmain filters cache
    rw [hempty] at h1
    cases h2 : (processSample filters cache now s).1 with
    | none => exact absurd (h1.mp h2) (by simp)
    | some x => rfl
  · intro fd fk hfd hfk hfdm
    have hm : matchedKeepDrops [fd, fk] s =
        LabelFilterAction.drop ::
          (if fk.regex (joinedValues fk s) then [LabelFilterAction.keep] else []) := by
      unfold matchedKeepDrops
      simp [hfdm, hfd, hfk, isKeepOrDrop, List.filter]
    have h1 := hmain [fd, fk] cache
    by_cases hc : fk.regex (joinedValues fk s) = true
    · rw [hm, if_pos hc] at h1
      simp only [List.getLast?_cons_cons] at h1
      constructor
      · intro _; exact hc
      · intro _
        cases h2 : (processSample [fd, fk] cache now s).1 with
        | none => simpa using h1.mp h2
        | some x => rfl
    · rw [hm, if_neg hc] at h1
      have h2 : (processSample [fd, fk] cache now s).1 = none := h1.mpr (by rfl)
      rw [h2]
      simp [hc]

/-- Witness for C2: the blanket-drop-then-targeted-keep pair retains the
concrete sample the Keep rule matches. -/
theorem filter_last_write_wins_witness :
    filterDropAll.actions = [.drop] ∧ filterKeepCpu1.actions = [.keep] ∧
    filterDropAll.regex (joinedValues filterDropAll sampleCpu1) = true ∧
    (processSample [filterDropAll, filterKeepCpu1]
        (SampleCacheStore.mk []) 0 sampleCpu1).1.isSome = true := by
  refine ⟨rfl, rfl, rfl, ?_⟩
  exact ((filter_last_write_wins [filterDropAll, filterKeepCpu1]
      (SampleCacheStore.mk []) 0 sampleCpu1).2.2
      filterDropAll filterKeepCpu1 rfl rfl rfl).mpr (by decide)

/-- With ReduceTimeResolution-only filters no Keep/Drop action matches. -/
theorem matchedKeepDrops_nil_of_rtr (filters : List LabelFilter) (s : Sample)
    (h : ∀ f ∈ filters, ∀ a ∈ f.actions, ∃ r, a = .reduceTimeResolution r) :
    matchedKeepDrops filters s = [] := by
  unfold matchedKeepDrops
  rw [List.flatMap_eq_nil_iff]
  intro f hf
  by_cases hc : f.regex (joinedValues f s) = true
  · rw [if_pos hc]
    rw [List.filter_eq_nil_iff]
    intro a ha
    obtain ⟨r, rfl⟩ := h f hf a ha
    simp [isKeepOrDrop]
  · rw [if_neg hc]

/-- With ReduceTimeResolution-only filters the final `keep` stays unset. -/
theorem runFilters_keep_none_of_rtr (filters : List LabelFilter)
    (c : SampleCacheStore) (now : Nat) (s : Sample)
    (h : ∀ f ∈ filters, ∀ a ∈ f.actions, ∃ r, a = .reduceTimeResolution r) :
    (runFilters filters c now s).keep = none := by
  rw [runFilters_keep, matchedKeepDrops_nil_of_rtr _ _ h]
  rfl

/-- The action loop only ever writes a sample-cache lookup result into
`cached_sample`. -/
theorem foldl_applyAction_cached (c : SampleCacheStore) (now : Nat) (s : Sample)
    (m : Bool) (l : List LabelFilterAction) (st : FilterState)
    (hst : st.cached_sample = none ∨ ∃ r, st.cached_sample = c.get s now r) :
    ((l.foldl (applyAction c now s m) st).cached_sample = none ∨
      ∃ r, (l.foldl (applyAction c now s m) st).cached_sample = c.get s now r) := by
  induction l generalizing st with
  | nil => exact hst
  | cons a l ih =>
    apply ih
    cases m with
    | false => simpa [applyAction] using hst
    | true =>
      cases a with
      | keep => simpa [applyAction] using hst
      | drop => simpa [applyAction] using hst
      | reduceTimeResolution r => exact Or.inr ⟨r, by simp [applyAction]⟩

/-- A non-`none` `cached_sample` at the end of the filter loop is always a
sample-cache lookup result for the processed sample at the pass `now`. -/
theorem runFilters_cached (filters : List LabelFilter) (c : SampleCacheStore)
    (now : Nat) (s : Sample) :
    (runFilters filters c now s).cached_sample = none ∨
      ∃ r, (runFilters filters c now s).cached_sample = c.get s now r := by
  suffices hgen : ∀ (fs : List LabelFilter) (st : FilterState),
      (st.cached_sample = none ∨ ∃ r, st.cached_sample = c.get s now r) →
      ((fs.foldl (applyFilter c now s) st).cached_sample = none ∨
        ∃ r, (fs.foldl (applyFilter c now s) st).cached_sample = c.get s now r) by
    exact hgen filters ⟨none, none, false⟩ (Or.inl rfl)
  intro fs
  induction fs with
  | nil => exact fun st h => h
  | cons f fs ih =>
    intro st hst
    exact ih _ (foldl_applyAction_cached c now s _ f.actions st hst)

/-- A sample whose final `keep` is not `Some(false)` is always emitted. -/
theorem processSample_isSome (filters : List LabelFilter) (c : SampleCacheStore)
    (now : Nat) (s : Sample)
    (hk : (runFilters filters c now s).keep ≠ some false) :
    (processSample filters c now s).1.isSome = true := by
  unfold processSample
  simp only [if_neg hk]
  cases (runFilters filters c now s).cached_sample <;> simp

/-- The emit step when a cached substitute is present. -/
theorem processSample_of_cached_some (filters : List LabelFilter)
    (c : SampleCacheStore) (now : Nat) (s : Sample) (x : Sample)
    (hk : (runFilters filters c now s).keep ≠ some false)
    (hc : (runFilters filters c now s).cached_sample = some x) :
    processSample filters c now s = (some x, c) := by
  unfold processSample
  simp [if_neg hk, hc]

/-- The emit step on a cache miss. -/
theorem processSample_of_cached_none (filters : List LabelFilter)
    (c : SampleCacheStore) (now : Nat) (s : Sample)
    (hk : (runFilters filters c now s).keep ≠ some false)
    (hc : (runFilters filters c now s).cached_sample = none) :
    processSample filters c now s =
      (some s, if (runFilters filters c now s).must_cache
        then c.put s now else c) := by
  unfold processSample
  simp [if_neg hk, hc]

/-- When every per-sample decision emits a sample, the output length tracks
the input length. -/
theorem foldl_filterStep_length (filters : List LabelFilter)
    (seriesDocs : List (String × String)) (now : Nat)
    (hsome : ∀ c s, (processSample filters c now s).1.isSome = true) :
    ∀ (samples : List Sample)
      (acc : List Sample × List (String × String) × SampleCacheStore),
      ((samples.foldl (filterStep filters seriesDocs now) acc).1).length
        = acc.1.length + samples.length := by
  intro samples
  induction samples with
  | nil => intro acc; simp
  | cons s rest ih =>
    intro acc
    rw [List.foldl_cons, ih]
    cases hp : processSample filters acc.2.2 now s with
    | mk o c' =>
      cases o with
      | none =>
        have hs := hsome acc.2.2 s
        rw [hp] at hs
        simp at hs
      | some out =>
        simp only [filterStep, hp]
        simp
        omega

/-- C4: for every filter list whose actions are only ReduceTimeResolution,
the filter engine emits exactly one sample per input sample; a sample is only
ever substituted by the entry stored under its own fingerprint, and on a
cache miss the original sample is emitted and (when the cache was consulted)
stored into the sample cache at the pass's single `now`. -/
theorem rtr_only_never_removes (filters : List LabelFilter) (series : Scrape)
    (cache : SampleCacheStore) (now : Nat)
    (h : ∀ f ∈ filters, ∀ a ∈ f.actions, ∃ r, a = .reduceTimeResolution r) :
    ((apply_filters filters series cache now).1.samples.length
        = series.samples.length)
  ∧ (∀ c s x, (runFilters filters c now s).cached_sample = some x →
       (∃ e, alookup (fingerprintOf s) c.cache = some e ∧ x = e.sample) ∧
       processSample filters c now s = (some x, c))
  ∧ (∀ c s, (runFilters filters c now s).cached_sample = none →
       processSample filters c now s =
         (some s, if (runFilters filters c now s).must_cache
           then c.put s now else c)) := by
  have hkeep : ∀ (c : SampleCacheStore) (s : Sample),
      (runFilters filters c now s).keep ≠ some false := by
    intro c s
    rw [runFilters_keep_none_of_rtr filters c now s h]
    simp
  refine ⟨?_, ?_, ?_⟩
  · unfold apply_filters
    rw [foldl_filterStep_length filters series.docs now
      (fun c s => processSample_isSome filters c now s (hkeep c s))]
    simp
  · intro c s x hx
    constructor
    · rcases runFilters_cached filters c now s with hnone | ⟨r, hr⟩
      · rw [hnone] at hx; cases hx
      · rw [hx] at hr
        rcases (sampleCache_get_eq_some_iff c s now r x).mp hr.symm with
          ⟨-, e, he, -, hxe⟩
        exact ⟨e, he, hxe⟩
    · exact processSample_of_cached_some filters c now s x (hkeep c s) hx
  · intro c s hc
    exact processSample_of_cached_none filters c now s (hkeep c s) hc

/-- Witness for C4: the concrete ReduceTimeResolution-only filter list emits
exactly one output sample for the one-sample input scrape. -/
theorem rtr_only_never_removes_witness :
    (∀ f ∈ [filterRtr], ∀ a ∈ f.actions, ∃ r,
        a = LabelFilterAction.reduceTimeResolution r) ∧
    (apply_filters [filterRtr] ⟨[], [sampleA]⟩
        (SampleCacheStore.mk []) 0).1.samples.length = 1 := by
  have h : ∀ f ∈ [filterRtr], ∀ a ∈ f.actions, ∃ r,
      a = LabelFilterAction.reduceTimeResolution r := by
    intro f hf a ha
    rcases List.mem_singleton.mp hf with rfl
    rcases List.mem_singleton.mp ha with rfl
    exact ⟨10, rfl⟩
  exact ⟨h, (rtr_only_never_removes [filterRtr] ⟨[], [sampleA]⟩
    (SampleCacheStore.mk []) 0 h).1⟩

/-- Counterexample for C1: the backend status 204 lies in the 2xx range and
its body parses, yet `handle` passes the response through with status 204 and
the raw body instead of filtering and returning 200 — `scrape` treats every
status other than exactly 200 as the passthrough case. -/
theorem handle_204_passthrough :
    ((200 ≤ 204 ∧ 204 < 300) ∧ parseNone "x" = .ok ⟨[], []⟩)
  ∧ handle [] parseNone (SampleCacheStore.mk []) 0 (.ok 204 [] "x")
      = (204, [], "x")
  ∧ (204 : Nat) ≠ 200 := by
  exact ⟨⟨by decide, rfl⟩, rfl, by decide⟩

/-- C1 (amended): `handle` realizes the outcome table with the passthrough
boundary at "status ≠ 200" (instead of "status outside 2xx"): non-200 statuses
are passed through with sanitized backend headers and the raw body without
entering filtering; a 200 response is parsed, filtered, rendered and returned
as 200; a parse error yields 500 with a plain-text diagnostic; a fetch
timeout yields 504 and any other fetch error 502; and the handler maps a
UTF-8 decode error to 500 (this client's `scrape` never produces one). -/
theorem handle_outcome_table (filters : List LabelFilter)
    (parse : String → Except String Scrape) (cache : SampleCacheStore)
    (now : Nat) :
    (∀ r, handle filters parse cache now r
       = handleOutcomeSpec filters parse cache now r)
  ∧ (∀ e, handleResult filters cache now (.error (.decodeError e))
       = (500, fallback_headers, "Error decoding UTF-8 output.\n\n" ++ e)) := by
  constructor
  · intro r
    cases r with
    | err t d => cases t <;> rfl
    | ok st hs text =>
      unfold handle scrape handleOutcomeSpec
      by_cases hst : st = 200
      · subst hst
        simp only [ne_eq, not_true_eq_false, if_false, reduceIte]
        cases hp : parse text with
        | ok p => simp [hp, handleResult]
        | error e => simp [hp, handleResult]
      · simp [hst, handleResult]
  · intro e
    rfl

/-- Keyed insert makes the inserted value visible under its key. -/
theorem alookup_aInsert {κ β : Type} [DecidableEq κ] (k : κ) (v : β)
    (l : List (κ × β)) : alookup k (aInsert k v l) = some v := by
  induction l with
  | nil => simp [aInsert, alookup]
  | cons p ps ih =>
    by_cases hp : p.1 = k
    · simp [aInsert, hp, alookup]
    · simp [aInsert, hp, alookup, ih]

/-- Keyed insert leaves lookups under other keys unchanged. -/
theorem alookup_aInsert_ne {κ β : Type} [DecidableEq κ] (k k' : κ) (v : β)
    (l : List (κ × β)) (h : k' ≠ k) :
    alookup k' (aInsert k v l) = alookup k' l := by
  induction l with
  | nil =>
    simp only [aInsert, alookup]
    rw [if_neg (fun he => h he.symm)]
  | cons p ps ih =>
    by_cases hp : p.1 = k
    · simp only [aInsert, if_pos hp, alookup]
      rw [if_neg (fun he => h he.symm), if_neg (fun he => h (he.symm.trans hp))]
    · simp only [aInsert, if_neg hp, alookup]
      by_cases hp' : p.1 = k'
      · rw [if_pos hp', if_pos hp']
      · rw [if_neg hp', if_neg hp', ih]

/-- A hit decomposes into the map entry and its set value. -/
theorem hitLookup_eq_some {Y : Type} (s : CoalescerState Y) (key : String)
    (v : Y) (h : hitLookup s key = some v) :
    ∃ id, alookup key s.entries = some id ∧
      alookup id s.values = some (some v) := by
  cases he : alookup key s.entries with
  | none =>
    have hn : hitLookup s key = none := by simp only [hitLookup, he]
    rw [hn] at h; cases h
  | some id =>
    cases hv : alookup id s.values with
    | none =>
      have hn : hitLookup s key = none := by simp only [hitLookup, he, hv]
      rw [hn] at h; cases h
    | some ov =>
      cases ov with
      | none =>
        have hn : hitLookup s key = none := by simp only [hitLookup, he, hv]
        rw [hn] at h; cases h
      | some v' =>
        have hs : hitLookup s key = some v' := by simp only [hitLookup, he, hv]
        rw [hs] at h
        cases h
        exact ⟨id, rfl, hv⟩

/-- C7: a response produced under the response coalescer is stored into the
coalescer's cache iff its status is in the 2xx range; the 2xx-only invariant
is preserved, and every call returning `hit = true` yields a response whose
status was 2xx when it was stored. -/
theorem coalescer_stores_iff_2xx (s : CoalescerState CachedResponse)
    (key : String) (resp : CachedResponse) (h : CoalescerInv s) :
    CoalescerInv (get_or_insert_with s key (resp, is2xx resp.status)).2
  ∧ ((get_or_insert_with s key (resp, is2xx resp.status)).1.2 = true →
       is2xx (get_or_insert_with s key (resp, is2xx resp.status)).1.1.status
         = true)
  ∧ (hitLookup s key = none →
       (alookup s.nextId
           (get_or_insert_with s key (resp, is2xx resp.status)).2.values
          = some (some resp) ↔ is2xx resp.status = true)) := by
  cases hhit : hitLookup s key with
  | some v =>
    simp only [get_or_insert_with, hhit]
    obtain ⟨id, -, hv⟩ := hitLookup_eq_some s key v hhit
    exact ⟨h, fun _ => h id v hv, fun hn => by simp [hhit] at hn⟩
  | none =>
    simp only [get_or_insert_with, hhit]
    refine ⟨?_, ?_, ?_⟩
    · intro id r hr
      by_cases hid : id = s.nextId
      · subst hid
        by_cases hc : is2xx resp.status = true
        · rw [if_pos hc, alookup_aInsert] at hr
          cases hr
          exact hc
        · rw [if_neg hc, alookup_aInsert] at hr
          cases hr
      · have hr' : alookup id s.values = some (some r) := by
          by_cases hc : is2xx resp.status = true
          · rw [if_pos hc, alookup_aInsert_ne _ _ _ _ hid,
              alookup_aInsert_ne _ _ _ _ hid] at hr
            exact hr
          · rw [if_neg hc, alookup_aInsert_ne _ _ _ _ hid] at hr
            exact hr
        exact h id r hr'
    · intro hfalse
      cases hfalse
    · intro _
      by_cases hc : is2xx resp.status = true
      · rw [if_pos hc, alookup_aInsert]
        simp [hc]
      · rw [if_neg hc, alookup_aInsert]
        simp only [hc]
        constructor
        · intro he
          cases he
        · intro he
          cases he

/-- Witness for C7: inserting a concrete 200 response into the empty
coalescer stores it. -/
theorem coalescer_stores_iff_2xx_witness :
    CoalescerInv emptyCoalescer ∧
    alookup (0 : Nat)
        (get_or_insert_with emptyCoalescer "k"
          (respOk, is2xx respOk.status)).2.values
      = some (some respOk) := by
  have hinv : CoalescerInv emptyCoalescer := by
    intro id r hr
    simp [emptyCoalescer, alookup] at hr
  refine ⟨hinv, ?_⟩
  exact ((coalescer_stores_iff_2xx emptyCoalescer "k" respOk hinv).2.2 rfl).mpr
    (by decide)

/-- Counterexample for C9: calling `get_or_insert_with` on a key whose map
entry is a tombstone inserts a fresh entry object (identity 1) replacing the
tombstone, and the prior entry object (identity 0) is left unwritten — the
existing entry is not shared. -/
theorem tombstone_counterexample :
    alookup "k" (get_or_insert_with tombState "k" (respOk, true)).2.entries
      = some 1
  ∧ (1 : Nat) ≠ 0
  ∧ alookup (0 : Nat)
        (get_or_insert_with tombState "k" (respOk, true)).2.values
      = some none := by
  refine ⟨by decide, by decide, by decide⟩

/-- C9 (amended): when `get_or_insert_with` is called with a key for which
the map already holds an entry whose value is empty (a tombstone left by a
prior uncacheable result), the operation proceeds to fetch after inserting a
fresh empty entry that replaces the tombstone under the key; the fresh entry
(not the prior tombstone object) is the one whose value is written if the new
result is cacheable, and the tombstone object's value is left unchanged. -/
theorem tombstone_replaced {Y : Type} (s : CoalescerState Y) (key : String)
    (fut : Y × Bool) (id : Nat) (hmiss : hitLookup s key = none)
    (_hid : alookup key s.entries = some id) (hlt : id < s.nextId) :
    alookup key (get_or_insert_with s key fut).2.entries = some s.nextId
  ∧ alookup s.nextId (get_or_insert_with s key fut).2.values
      = some (if fut.2 then some fut.1 else none)
  ∧ alookup id (get_or_insert_with s key fut).2.values
      = alookup id s.values := by
  have hne : id ≠ s.nextId := Nat.ne_of_lt hlt
  simp only [get_or_insert_with, hmiss]
  refine ⟨alookup_aInsert _ _ _, ?_, ?_⟩
  · by_cases hc : fut.2 = true
    · rw [if_pos hc, alookup_aInsert, if_pos hc]
    · rw [if_neg hc, alookup_aInsert,
        if_neg hc]
  · by_cases hc : fut.2 = true
    · rw [if_pos hc, alookup_aInsert_ne _ _ _ _ hne,
        alookup_aInsert_ne _ _ _ _ hne]
    · rw [if_neg hc, alookup_aInsert_ne _ _ _ _ hne]

/-- Witness for C9 (amended): the concrete tombstone state receives a fresh
entry with identity `tombState.nextId = 1`. -/
theorem tombstone_replaced_witness :
    hitLookup tombState "k" = none
  ∧ alookup "k" tombState.entries = some 0
  ∧ (0 : Nat) < tombState.nextId
  ∧ alookup "k" (get_or_insert_with tombState "k" (respOk, true)).2.entries
      = some tombState.nextId := by
  refine ⟨rfl, rfl, by decide, ?_⟩
  exact (tombstone_replaced tombState "k" (respOk, true) 0 rfl rfl
    (by decide)).1

/-- Splitting a character list at its first newline is unambiguous when both
prefixes are newline-free. -/
theorem splitNl (x : List Char) : ∀ (y r t : List Char), '\n' ∉ x → '\n' ∉ y →
    x ++ '\n' :: r = y ++ '\n' :: t → x = y ∧ r = t := by
  induction x with
  | nil =>
    intro y r t _ hy h
    cases y with
    | nil => simpa using h
    | cons d y' =>
      injection h with h1 h2
      cases h1
      exact absurd (List.mem_cons_self _ _) hy
  | cons c x' ih =>
    intro y r t hx hy h
    cases y with
    | nil =>
      injection h with h1 h2
      cases h1
      exact absurd (List.mem_cons_self _ _) hx
    | cons d y' =>
      injection h with h1 h2
      cases h1
      have hx' : '\n' ∉ x' := fun hm => hx (List.mem_cons_of_mem _ hm)
      have hy' : '\n' ∉ y' := fun hm => hy (List.mem_cons_of_mem _ hm)
      obtain ⟨hxy, hrt⟩ := ih y' r t hx' hy' h2
      exact ⟨by rw [hxy], hrt⟩

/-- Debug-formatting an authorization header is injective. -/
theorem fmtDebugOpt_inj (o o' : Option String)
    (h : fmtDebugOpt o = fmtDebugOpt o') : o = o' := by
  have hlen := congrArg String.length h
  cases o with
  | none =>
    cases o' with
    | none => rfl
    | some v' =>
      exfalso
      simp only [fmtDebugOpt, String.length_append] at hlen
      have h1 : ("None" : String).length = 4 := rfl
      have h2 : ("Some(\x22" : String).length = 6 := rfl
      have h3 : ("\x22)" : String).length = 2 := rfl
      omega
  | some v =>
    cases o' with
    | none =>
      exfalso
      simp only [fmtDebugOpt, String.length_append] at hlen
      have h1 : ("None" : String).length = 4 := rfl
      have h2 : ("Some(\x22" : String).length = 6 := rfl
      have h3 : ("\x22)" : String).length = 2 := rfl
      omega
    | some v' =>
      have hd := congrArg String.data h
      simp only [fmtDebugOpt, String.data_append] at hd
      have hv : v.data = v'.data :=
        List.append_cancel_left (List.append_cancel_right hd)
      rw [String.ext hv]

/-- Debug-formatting keeps a newline-free header value newline-free. -/
theorem fmtDebugOpt_no_newline (o : Option String)
    (h : ∀ v, o = some v → '\n' ∉ v.data) :
    '\n' ∉ (fmtDebugOpt o).data := by
  cases o with
  | none => decide
  | some v =>
    intro hmem
    simp only [fmtDebugOpt, String.data_append, List.mem_append] at hmem
    rcases hmem with (h1 | h2) | h3
    · exact absurd h1 (by decide)
    · exact absurd h2 (h v rfl)
    · exact absurd h3 (by decide)

/-- A newline-separated concatenation determines its newline-free parts. -/
theorem key_parts_inj (u u' p p' : String)
    (rest rest' : String) (hu : '\n' ∉ u.data) (hu' : '\n' ∉ u'.data)
    (hp : '\n' ∉ p.data) (hp' : '\n' ∉ p'.data)
    (h : u ++ "\n" ++ p ++ "\n" ++ rest = u' ++ "\n" ++ p' ++ "\n" ++ rest') :
    u = u' ∧ p = p' := by
  have hd := congrArg String.data h
  simp only [String.data_append] at hd
  have hshape :
      u.data ++ '\n' :: (p.data ++ '\n' :: rest.data)
        = u'.data ++ '\n' :: (p'.data ++ '\n' :: rest'.data) := by
    simpa [List.append_assoc] using hd
  obtain ⟨h1, h2⟩ := splitNl u.data u'.data _ _ hu hu' hshape
  obtain ⟨h3, -⟩ := splitNl p.data p'.data _ _ hp hp' h2
  exact ⟨String.ext h1, String.ext h3⟩

/-- Counterexample for C8: the coalescer key computed by
`CachedMetricsProxier::handle_with_cache` does not contain the request URL;
two requests with distinct URLs (and equal authorization headers) get the
same key. -/
theorem coalescer_key_ignores_url :
    reqA.uri ≠ reqB.uri ∧ handleWithCacheKeyOf reqA = handleWithCacheKeyOf reqB := by
  exact ⟨by decide, rfl⟩

/-- C8 (amended): the `CacheService` layer's key is the newline-separated
concatenation of the request URL and the debug renderings of the
Authorization and Proxy-Authorization header values, and it separates both
distinct URLs and distinct Authorization values; the coalescer key computed
by `CachedMetricsProxier::handle_with_cache`, however, concatenates only the
two authorization header renderings — distinct Authorization values still
yield distinct keys there, but the URL does not enter the key (each
proxier instance holds its own per-target cache).  Header values and URLs
are newline-free. -/
theorem coalescer_key_spec (r r' : Request)
    (hu : '\n' ∉ r.uri.data) (hu' : '\n' ∉ r'.uri.data)
    (ha : ∀ v, r.authorization = some v → '\n' ∉ v.data)
    (ha' : ∀ v, r'.authorization = some v → '\n' ∉ v.data) :
    (cacheServiceKeyOf r = r.uri ++ "\n" ++ fmtDebugOpt r.authorization
        ++ "\n" ++ fmtDebugOpt r.proxy_authorization)
  ∧ (handleWithCacheKeyOf r = fmtDebugOpt r.authorization ++ "\n"
        ++ fmtDebugOpt r.proxy_authorization)
  ∧ (r.uri ≠ r'.uri → cacheServiceKeyOf r ≠ cacheServiceKeyOf r')
  ∧ (r.authorization ≠ r'.authorization →
       cacheServiceKeyOf r ≠ cacheServiceKeyOf r'
       ∧ handleWithCacheKeyOf r ≠ handleWithCacheKeyOf r') := by
  have hdbg : '\n' ∉ (fmtDebugOpt r.authorization).data :=
    fmtDebugOpt_no_newline _ ha
  have hdbg' : '\n' ∉ (fmtDebugOpt r'.authorization).data :=
    fmtDebugOpt_no_newline _ ha'
  refine ⟨rfl, rfl, ?_, ?_⟩
  · intro hne heq
    have h := key_parts_inj r.uri r'.uri (fmtDebugOpt r.authorization)
      (fmtDebugOpt r'.authorization) _ _ hu hu' hdbg hdbg' heq
    exact hne h.1
  · intro hne
    constructor
    · intro heq
      have h := key_parts_inj r.uri r'.uri (fmtDebugOpt r.authorization)
        (fmtDebugOpt r'.authorization) _ _ hu hu' hdbg hdbg' heq
      exact hne (fmtDebugOpt_inj _ _ h.2)
    · intro heq
      have hd := congrArg String.data heq
      simp only [handleWithCacheKeyOf, handleWithCacheKey, String.data_append] at hd
      have hshape :
          (fmtDebugOpt r.authorization).data
              ++ '\n' :: (fmtDebugOpt r.proxy_authorization).data
            = (fmtDebugOpt r'.authorization).data
              ++ '\n' :: (fmtDebugOpt r'.proxy_authorization).data := by
        simpa [List.append_assoc] using hd
      obtain ⟨h1, -⟩ := splitNl _ _ _ _ hdbg hdbg' hshape
      exact hne (fmtDebugOpt_inj _ _ (String.ext h1))

/-- Witness for C8 (amended): concrete requests with distinct Authorization
values get distinct keys under both key computations. -/
theorem coalescer_key_spec_witness :
    reqTok1.authorization ≠ reqTok2.authorization
  ∧ cacheServiceKeyOf reqTok1 ≠ cacheServiceKeyOf reqTok2
  ∧ handleWithCacheKeyOf reqTok1 ≠ handleWithCacheKeyOf reqTok2 := by
  have h := (coalescer_key_spec reqTok1 reqTok2 (by decide) (by decide)
    (by intro v hv; cases hv; decide)
    (by intro v hv; cases hv; decide)).2.2.2 (by decide)
  exact ⟨by decide, h.1, h.2⟩

/-- Inserting a pair into a list keeps the subsequence of pairs carrying a
given name, with the inserted pair first when its own name matches: every
element skipped by `orderedInsert` has a strictly smaller name. -/
theorem filter_name_orderedInsert (m : String) (a : LabelPair) :
    ∀ l : List LabelPair,
    (List.orderedInsert rname a l).filter (fun q => q.name == m)
      = if a.name == m then a :: l.filter (fun q => q.name == m)
        else l.filter (fun q => q.name == m) := by
  intro l
  induction l with
  | nil =>
    simp only [List.orderedInsert, List.filter]
    by_cases ham : (a.name == m) = true <;> simp [ham]
  | cons b l ih =>
    rw [List.orderedInsert]
    by_cases hr : rname a b
    · rw [if_pos hr, List.filter_cons, List.filter_cons]
    · rw [if_neg hr, List.filter_cons, List.filter_cons, ih]
      have hlt : b.name.data < a.name.data := lt_of_not_le hr
      by_cases ham : (a.name == m) = true
      · have hbm : (b.name == m) = false := by
          rw [beq_eq_false_iff_ne]
          intro hbme
          have hame : a.name = m := by simpa using ham
          rw [hbme, ← hame] at hlt
          exact absurd hlt (lt_irrefl _)
        simp [ham, hbm]
      · by_cases hbm : (b.name == m) = true <;> simp [ham, hbm]

/-- Sorting by name preserves the subsequence of pairs carrying any given
name (stability of the insertion sort on equal keys). -/
theorem filter_name_insertionSort (m : String) (l : List LabelPair) :
    (List.insertionSort rname l).filter (fun q => q.name == m)
      = l.filter (fun q => q.name == m) := by
  induction l with
  | nil => rfl
  | cons a l ih =>
    rw [List.insertionSort, filter_name_orderedInsert, ih, List.filter_cons]

/-- Two sorted permutations of each other are equal when equal names imply
equal elements among their members. -/
theorem sorted_perm_eq (l₁ : List LabelPair) : ∀ (l₂ : List LabelPair),
    l₁.Perm l₂ → l₁.Sorted rname → l₂.Sorted rname →
    (∀ a ∈ l₁, ∀ b ∈ l₁, a.name = b.name → a = b) → l₁ = l₂ := by
  induction l₁ with
  | nil =>
    intro l₂ hp _ _ _
    rw [(List.Perm.eq_nil hp.symm)]
  | cons a t₁ ih =>
    intro l₂ hp hs₁ hs₂ ha
    cases l₂ with
    | nil => cases List.Perm.eq_nil hp
    | cons b t₂ =>
      have hab : a = b := by
        have hamem : a ∈ b :: t₂ := hp.mem_iff.mp (List.mem_cons_self a t₁)
        have hbmem : b ∈ a :: t₁ := hp.mem_iff.mpr (List.mem_cons_self b t₂)
        rcases List.mem_cons.mp hamem with h1 | h1
        · exact h1
        rcases List.mem_cons.mp hbmem with h2 | h2
        · exact h2.symm
        have hba : rname b a := (List.sorted_cons.mp hs₂).1 a h1
        have hab' : rname a b := (List.sorted_cons.mp hs₁).1 b h2
        have hname : a.name = b.name := String.ext (le_antisymm hab' hba)
        exact ha a (List.mem_cons_self a t₁) b (List.mem_cons_of_mem _ h2) hname
      subst hab
      have ht : t₁.Perm t₂ := List.Perm.cons_inv hp
      have h := ih t₂ ht (List.sorted_cons.mp hs₁).2 (List.sorted_cons.mp hs₂).2
        (fun a' ha' b' hb' hn =>
          ha a' (List.mem_cons_of_mem _ ha') b' (List.mem_cons_of_mem _ hb') hn)
      rw [h]

/-- C5: two samples have equal fingerprints iff they have the same metric
name and the same label set viewed as a set of (name, value) pairs; in
particular two samples of the same series yield equal fingerprints regardless
of the iteration order of their labels.  (Labels are maps: their names are
pairwise distinct.) -/
theorem fingerprint_eq_iff (x x' : Sample)
    (h1 : (x.labels.map Prod.fst).Nodup) (h2 : (x'.labels.map Prod.fst).Nodup) :
    fingerprintOf x = fingerprintOf x' ↔
      (x.metric = x'.metric ∧ ∀ p, p ∈ x.labels ↔ p ∈ x'.labels) := by
  have hmemmap : ∀ (s : Sample) (p : String × String),
      p ∈ s.labels ↔ (⟨p.1, p.2⟩ : LabelPair) ∈ labelPairsOf s := by
    intro s p
    constructor
    · intro hp
      exact List.mem_map.mpr ⟨p, hp, rfl⟩
    · intro hp
      rcases List.mem_map.mp hp with ⟨q, hq, he⟩
      cases q
      cases he
      exact hq
  constructor
  · intro hfp
    have hfp' : List.insertionSort rname (⟨"__name__", x.metric⟩ :: labelPairsOf x)
        = List.insertionSort rname (⟨"__name__", x'.metric⟩ :: labelPairsOf x') := hfp
    have hfilter := congrArg (List.filter (fun q => q.name == "__name__")) hfp'
    rw [filter_name_insertionSort, filter_name_insertionSort,
        List.filter_cons, List.filter_cons] at hfilter
    simp only [show (("__name__" : String) == "__name__") = true from rfl,
      if_pos] at hfilter
    have hmetric : x.metric = x'.metric := by
      have hhead : (⟨"__name__", x.metric⟩ : LabelPair)
          = ⟨"__name__", x'.metric⟩ := by
        injection hfilter
      injection hhead
    have hpA := List.perm_insertionSort rname
      (⟨"__name__", x.metric⟩ :: labelPairsOf x)
    have hpB := List.perm_insertionSort rname
      (⟨"__name__", x'.metric⟩ :: labelPairsOf x')
    have hAB : (⟨"__name__", x.metric⟩ :: labelPairsOf x).Perm
        (⟨"__name__", x'.metric⟩ :: labelPairsOf x') :=
      hpA.symm.trans (hfp' ▸ hpB)
    rw [hmetric] at hAB
    have hlp : (labelPairsOf x).Perm (labelPairsOf x') := List.Perm.cons_inv hAB
    refine ⟨hmetric, fun p => ?_⟩
    rw [hmemmap x p, hmemmap x' p]
    exact hlp.mem_iff
  · rintro ⟨hm, hset⟩
    have hnd : x.labels.Nodup := h1.of_map
    have hnd' : x'.labels.Nodup := h2.of_map
    have hlper : x.labels.Perm x'.labels :=
      (List.perm_ext_iff_of_nodup hnd hnd').mpr hset
    have hmp : (labelPairsOf x).Perm (labelPairsOf x') := hlper.map _
    have hanti : ∀ a ∈ List.insertionSort rname (labelPairsOf x),
        ∀ b ∈ List.insertionSort rname (labelPairsOf x),
        a.name = b.name → a = b := by
      intro a hamem b hbmem hn
      have ha' : a ∈ labelPairsOf x :=
        (List.perm_insertionSort rname _).mem_iff.mp hamem
      have hb' : b ∈ labelPairsOf x :=
        (List.perm_insertionSort rname _).mem_iff.mp hbmem
      rcases List.mem_map.mp ha' with ⟨p, hp, rfl⟩
      rcases List.mem_map.mp hb' with ⟨q, hq, rfl⟩
      have hpq : p = q := List.inj_on_of_nodup_map h1 hp hq hn
      rw [hpq]
    have hsorted : List.insertionSort rname (labelPairsOf x)
        = List.insertionSort rname (labelPairsOf x') :=
      sorted_perm_eq _ _
        ((List.perm_insertionSort rname _).trans
          (hmp.trans (List.perm_insertionSort rname _).symm))
        (List.sorted_insertionSort rname _) (List.sorted_insertionSort rname _)
        hanti
    show List.insertionSort rname (⟨"__name__", x.metric⟩ :: labelPairsOf x)
        = List.insertionSort rname (⟨"__name__", x'.metric⟩ :: labelPairsOf x')
    rw [List.insertionSort, List.insertionSort, hm, hsorted]

/-- Witness for C5: two samples of the same series with their labels in
different iteration orders have bitwise-equal fingerprints. -/
theorem fingerprint_eq_iff_witness :
    (sampleL.labels.map Prod.fst).Nodup ∧ (sampleL'.labels.map Prod.fst).Nodup
  ∧ fingerprintOf sampleL = fingerprintOf sampleL' := by
  refine ⟨by decide, by decide, ?_⟩
  refine (fingerprint_eq_iff sampleL sampleL' (by decide) (by decide)).mpr
    ⟨rfl, ?_⟩
  intro p
  constructor
  · intro hp
    rcases List.mem_cons.mp hp with h | h
    · exact List.mem_cons_of_mem _ (h ▸ List.mem_cons_self _ _)
    · rcases List.mem_cons.mp h with h' | h'
      · exact h' ▸ List.mem_cons_self _ _
      · cases h'
  · intro hp
    rcases List.mem_cons.mp hp with h | h
    · exact List.mem_cons_of_mem _ (h ▸ List.mem_cons_self _ _)
    · rcases List.mem_cons.mp h with h' | h'
      · exact h' ▸ List.mem_cons_self _ _
      · cases h'

/-- A key is absent from an association list iff its lookup is `none`. -/
theorem alookup_eq_none {κ β : Type} [DecidableEq κ] (k : κ) :
    ∀ l : List (κ × β), alookup k l = none ↔ k ∉ l.map Prod.fst := by
  intro l
  induction l with
  | nil => simp [alookup]
  | cons p ps ih =>
    by_cases hp : p.1 = k
    · simp [alookup, hp]
    · rw [show alookup k (p :: ps)
          = if p.1 = k then some p.2 else alookup k ps from rfl,
        if_neg hp, ih, List.map_cons, List.mem_cons]
      constructor
      · intro h hmem
        rcases hmem with h1 | h1
        · exact hp h1.symm
        · exact h h1
      · intro h hmem
        exact h (Or.inr hmem)

/-- Looking up a key in an extended association list. -/
theorem alookup_append_single {κ β : Type} [DecidableEq κ] (m k : κ) (h : β)
    (l : List (κ × β)) :
    alookup m (l ++ [(k, h)]) =
      match alookup m l with
      | some v => some v
      | none => if k = m then some h else none := by
  induction l with
  | nil => simp [alookup]
  | cons p ps ih =>
    by_cases hp : p.1 = m
    · simp [alookup, hp]
    · simp [alookup, hp, ih]

/-- Removing a key leaves other lookups unchanged. -/
theorem alookup_eraseKey_ne {κ β : Type} [DecidableEq κ] (k m : κ)
    (hne : m ≠ k) : ∀ l : List (κ × β),
    alookup m (eraseKey k l) = alookup m l := by
  intro l
  induction l with
  | nil => rfl
  | cons p ps ih =>
    by_cases hp : p.1 = k
    · rw [eraseKey, if_pos hp]
      rw [show alookup m (p :: ps) = if p.1 = m then some p.2 else alookup m ps
          from rfl,
        if_neg (fun h => hne (h.symm.trans hp))]
    · rw [eraseKey, if_neg hp]
      rw [show alookup m (p :: ps) = if p.1 = m then some p.2 else alookup m ps
          from rfl,
        show alookup m (p :: eraseKey k ps)
            = if p.1 = m then some p.2 else alookup m (eraseKey k ps) from rfl,
        ih]

/-- Removing a key from a map with unique keys removes it entirely. -/
theorem alookup_eraseKey_self {κ β : Type} [DecidableEq κ] (k : κ) :
    ∀ l : List (κ × β), (l.map Prod.fst).Nodup →
    alookup k (eraseKey k l) = none := by
  intro l
  induction l with
  | nil => intro _; rfl
  | cons p ps ih =>
    intro hnd
    by_cases hp : p.1 = k
    · rw [eraseKey, if_pos hp]
      rw [alookup_eq_none]
      rw [List.map_cons] at hnd
      rw [← hp]
      exact (List.nodup_cons.mp hnd).1
    · rw [eraseKey, if_neg hp, alookup, if_neg hp]
      exact ih (List.nodup_cons.mp (List.map_cons _ p ps ▸ hnd)).2

/-- Removing a key from an association list yields a sublist. -/
theorem eraseKey_sublist {κ β : Type} [DecidableEq κ] (k : κ) :
    ∀ l : List (κ × β), (eraseKey k l).Sublist l := by
  intro l
  induction l with
  | nil => exact List.Sublist.refl _
  | cons p ps ih =>
    by_cases hp : p.1 = k
    · rw [eraseKey, if_pos hp]
      exact List.sublist_cons_self p ps
    · rw [eraseKey, if_neg hp]
      exact List.Sublist.cons₂ p ih

/-- Removing a key preserves uniqueness of keys. -/
theorem eraseKey_nodup {κ β : Type} [DecidableEq κ] (k : κ) (l : List (κ × β))
    (hnd : (l.map Prod.fst).Nodup) :
    ((eraseKey k l).map Prod.fst).Nodup :=
  hnd.sublist (List.Sublist.map Prod.fst (eraseKey_sublist k l))

/-- Once a key of the accumulated docs map agrees with the input docs map it
keeps agreeing as further samples are processed. -/
theorem docsAcc_preserves (sd : List (String × String)) :
    ∀ (rest : List Sample) (d : List (String × String)) (m : String),
    alookup m d = alookup m sd →
    alookup m (docsAcc sd d rest) = alookup m sd := by
  intro rest
  induction rest with
  | nil => intro d m h; exact h
  | cons s r ih =>
    intro d m h
    rw [docsAcc]
    apply ih
    by_cases hd : alookup s.metric d = none
    · rw [if_pos hd]
      cases hsd : alookup s.metric sd with
      | none => exact h
      | some hh =>
        rw [alookup_append_single]
        cases hm : alookup m d with
        | some v =>
          rw [hm] at h
          exact h
        | none =>
          rw [hm] at h
          show (if s.metric = m then some hh else none) = alookup m sd
          by_cases hkm : s.metric = m
          · rw [hkm] at hsd
            rw [hsd] at h
            cases h
          · rw [if_neg hkm]
            exact h
    · rw [if_neg hd]
      exact h

/-- After the docs accumulation pass, the accumulated map agrees with the
input docs map on the metric of every processed sample. -/
theorem docsAcc_lookup (sd : List (String × String)) :
    ∀ (samples : List Sample) (d : List (String × String)),
    (∀ m, alookup m d = none ∨ alookup m d = alookup m sd) →
    ∀ s ∈ samples, alookup s.metric (docsAcc sd d samples)
      = alookup s.metric sd := by
  intro samples
  induction samples with
  | nil => intro d _ s hs; cases hs
  | cons s0 rest ih =>
    intro d hinv s hs
    rw [docsAcc]
    have hinv' : ∀ m, alookup m
        (if alookup s0.metric d = none then
          match alookup s0.metric sd with
          | some h => d ++ [(s0.metric, h)]
          | none => d
        else d) = none ∨ alookup m
        (if alookup s0.metric d = none then
          match alookup s0.metric sd with
          | some h => d ++ [(s0.metric, h)]
          | none => d
        else d) = alookup m sd := by
      intro m
      by_cases hd : alookup s0.metric d = none
      · rw [if_pos hd]
        cases hsd : alookup s0.metric sd with
        | none => exact hinv m
        | some hh =>
          rw [alookup_append_single]
          cases hm : alookup m d with
          | some v =>
            rcases hinv m with h0 | h0
            · rw [hm] at h0; cases h0
            · rw [hm] at h0
              exact Or.inr h0
          | none =>
            show (if s0.metric = m then some hh else none) = none ∨
              (if s0.metric = m then some hh else none) = alookup m sd
            by_cases hkm : s0.metric = m
            · rw [if_pos hkm, ← hkm, hsd]
              exact Or.inr rfl
            · rw [if_neg hkm]
              exact Or.inl rfl
      · rw [if_neg hd]
        exact hinv m
    rcases List.mem_cons.mp hs with rfl | hmem
    · -- the head sample: its metric agrees after this step and stays agreeing
      apply docsAcc_preserves
      by_cases hd : alookup s.metric d = none
      · rw [if_pos hd]
        cases hsd : alookup s.metric sd with
        | none => exact hd
        | some hh =>
          show alookup s.metric (d ++ [(s.metric, hh)]) = some hh
          rw [alookup_append_single, hd]
          show (if s.metric = s.metric then some hh else none) = some hh
          rw [if_pos rfl]
      · rw [if_neg hd]
        rcases hinv s.metric with h0 | h0
        · exact absurd h0 hd
        · exact h0
    · exact ih _ hinv' s hmem

/-- The docs accumulation keeps keys unique. -/
theorem docsAcc_nodup (sd : List (String × String)) :
    ∀ (samples : List Sample) (d : List (String × String)),
    (d.map Prod.fst).Nodup → ((docsAcc sd d samples).map Prod.fst).Nodup := by
  intro samples
  induction samples with
  | nil => intro d h; exact h
  | cons s rest ih =>
    intro d hnd
    rw [docsAcc]
    apply ih
    by_cases hd : alookup s.metric d = none
    · rw [if_pos hd]
      cases hsd : alookup s.metric sd with
      | none => exact hnd
      | some hh =>
        rw [List.map_append]
        rw [List.nodup_append]
        refine ⟨hnd, by simp, ?_⟩
        intro a ha hb
        simp only [List.map_cons, List.map_nil, List.mem_singleton] at hb
        rw [hb] at ha
        exact absurd ha ((alookup_eq_none s.metric d).mp hd)
    · rw [if_neg hd]
      exact hnd

/-- With an empty filter list `apply_filters` copies the samples in order,
accumulates the docs of seen metrics, and leaves the cache untouched. -/
theorem apply_filters_empty (series : Scrape) (cache : SampleCacheStore)
    (now : Nat) :
    apply_filters [] series cache now
      = (⟨docsAcc series.docs [] series.samples, series.samples⟩, cache) := by
  suffices h : ∀ (samples : List Sample) (sacc : List Sample)
      (dacc : List (String × String)),
      samples.foldl (filterStep [] series.docs now) (sacc, dacc, cache)
        = (sacc ++ samples, docsAcc series.docs dacc samples, cache) by
    unfold apply_filters
    rw [h series.samples [] []]
    simp
  intro samples
  induction samples with
  | nil => intro sacc dacc; simp [docsAcc]
  | cons s rest ih =>
    intro sacc dacc
    rw [List.foldl_cons]
    have hstep : filterStep [] series.docs now (sacc, dacc, cache) s
        = (sacc ++ [s],
           (if alookup s.metric dacc = none then
             match alookup s.metric series.docs with
             | some h => dacc ++ [(s.metric, h)]
             | none => dacc
           else dacc), cache) := by
      unfold filterStep
      rw [show processSample [] cache now s = (some s, cache) from rfl]
    rw [hstep, ih, docsAcc]
    simp

/-- Rendering consumes the docs maps of the two sides identically when they
agree on every rendered metric. -/
theorem renderChunks_congr :
    ∀ (samples : List Sample) (h₁ h₂ : List (String × String)),
    (h₁.map Prod.fst).Nodup → (h₂.map Prod.fst).Nodup →
    (∀ s ∈ samples, alookup s.metric h₂ = alookup s.metric h₁) →
    renderChunks h₂ samples = renderChunks h₁ samples := by
  intro samples
  induction samples with
  | nil => intro _ _ _ _ _; rfl
  | cons s rest ih =>
    intro h₁ h₂ hnd₁ hnd₂ hagree
    rw [renderChunks, renderChunks, hagree s (List.mem_cons_self s rest)]
    cases halo : alookup s.metric h₁ with
    | none =>
      rw [ih h₁ h₂ hnd₁ hnd₂
        (fun s' hs' => hagree s' (List.mem_cons_of_mem _ hs'))]
    | some hh =>
      rw [ih (eraseKey s.metric h₁) (eraseKey s.metric h₂)
        (eraseKey_nodup _ _ hnd₁) (eraseKey_nodup _ _ hnd₂) ?_]
      intro s' hs'
      by_cases hm : s'.metric = s.metric
      · rw [hm, alookup_eraseKey_self _ _ hnd₂, alookup_eraseKey_self _ _ hnd₁]
      · rw [alookup_eraseKey_ne _ _ hm, alookup_eraseKey_ne _ _ hm]
        exact hagree s' (List.mem_cons_of_mem _ hs')

/-- C6: filtering a scrape with an empty filter list and then rendering
produces exactly the bytes of rendering the scrape directly (the renderer
already sorts label keys, so the two sides are bit-equal). -/
theorem filter_empty_render_id (series : Scrape) (cache : SampleCacheStore)
    (now : Nat) (hnd : (series.docs.map Prod.fst).Nodup) :
    render_scrape_data (apply_filters [] series cache now).1
      = render_scrape_data series := by
  rw [apply_filters_empty]
  unfold render_scrape_data
  have hchunks : renderChunks (docsAcc series.docs [] series.samples)
      (List.insertionSort rmetric series.samples)
    = renderChunks series.docs (List.insertionSort rmetric series.samples) := by
    apply renderChunks_congr _ series.docs _ hnd
    · exact docsAcc_nodup series.docs series.samples [] (by simp)
    · intro s hs
      have hmem : s ∈ series.samples :=
        (List.perm_insertionSort rmetric series.samples).mem_iff.mp hs
      exact docsAcc_lookup series.docs series.samples []
        (fun m => Or.inl rfl) s hmem
  rw [hchunks]

/-- Witness for C6: the concrete scrape renders identically with and without
the empty filter pass. -/
theorem filter_empty_render_id_witness :
    (scrapeW.docs.map Prod.fst).Nodup ∧
    render_scrape_data (apply_filters [] scrapeW (SampleCacheStore.mk []) 0).1
      = render_scrape_data scrapeW := by
  exact ⟨by decide,
    filter_empty_render_id scrapeW (SampleCacheStore.mk []) 0 (by decide)⟩

end MetricsProxy
